import Mathlib

/-!
Verification of `dmvr/builders.py` (pipeline, parser and filter builders).

The Python module is shallowly embedded:

* A Python `dict` is modelled as an association list together with
  CPython assignment semantics (`setA` updates the first occurrence of a
  key in place and otherwise appends, preserving insertion order).
* Tensors and feature types are opaque type parameters (`V`, `T`); the
  TensorFlow parsing primitives (`tf.io.parse_single_example`,
  `tf.io.parse_single_sequence_example`) are opaque function parameters.
* Caller-supplied step functions may fail (`Except E`), modelling Python
  exceptions raised inside user code; errors raised by the builder code
  itself (`KeyError` on a missing feature, `TypeError` on calling a
  function with the wrong arity) are modelled by dedicated constructors.
* A `raise` inside a mutating builder method is modelled by returning
  `Except.error (err, s)` where `s` is the object state at the moment of
  the raise, so that atomicity ("no partial state change") is expressible.
-/

set_option autoImplicit false

universe u v

/-! ## Python dict model -/

/-- Lookup of `d[k]` in an insertion-ordered dict: first entry whose key
matches. Returns `none` for a missing key (Python raises `KeyError`). -/
def lookupA {κ : Type u} {α : Type v} [DecidableEq κ] : List (κ × α) → κ → Option α
  | [], _ => none
  | p :: rest, k => if p.1 = k then some p.2 else lookupA rest k

/-- Assignment `d[k] = v`: updates the first entry with key `k` in place
(keeping its position, as CPython does) and otherwise appends. -/
def setA {κ : Type u} {α : Type v} [DecidableEq κ] : List (κ × α) → κ → α → List (κ × α)
  | [], k, v => [(k, v)]
  | p :: rest, k, v => if p.1 = k then (k, v) :: rest else p :: setA rest k v

/-- `FeaturesDict = Dict[str, tf.Tensor]` with opaque tensor values `V`. -/
abbrev FDict (V : Type u) : Type u := List (String × V)

/-- `ProcessorState = Dict[str, Any]` with opaque state values `S`. -/
abbrev PState (S : Type u) : Type u := List (String × S)

/-- `copy.copy(features_dict)`: a shallow dict copy.  In a pure value
model a shallow copy is the value itself. -/
def dictCopy {V : Type u} (d : FDict V) : FDict V := d

/-- Python truthiness of an `Optional[str]`: `None` and `''` are falsy. -/
def pyTruthy : Option String → Bool
  | none => false
  | some s => !(s = "")

/-! ## `_Builder`: step functions and descriptors

A step added by `add_fn` is called in one of four shapes depending on the
`feature_name` / `stateful` flags (spec section 9 models this as a tagged
union).  Caller-supplied functions may raise, hence `Except E`.  A
stateful Python function mutates the state dict in place; this is
modelled by returning the new state. -/

inductive StepFn (V S E : Type u) : Type u where
  | feature (f : V → Except E V)
  | statefulFeature (f : V → PState S → Except E (V × PState S))
  | mapping (f : FDict V → Except E (FDict V))
  | statefulMapping (f : FDict V → PState S → Except E (FDict V × PState S))

/-- `_FunctionDescription = namedtuple(fn_name, fn, feature_name, stateful)`. -/
structure FunctionDescription (V S E : Type u) : Type u where
  fn_name : String
  fn : StepFn V S E
  feature_name : Option String
  stateful : Bool

/-- State of a `_Builder`: the ordered list of function descriptions and
the counter used for synthetic names. -/
structure BuilderState (V S E : Type u) : Type u where
  fns_list : List (FunctionDescription V S E)
  fn_idx : Nat

/-- `_Builder.__init__`. -/
def initBuilder {V S E : Type u} : BuilderState V S E := { fns_list := [], fn_idx := 0 }

/-- Names of the registered steps, in order
(`[fd.fn_name for fd in self._fns_list]`). -/
def stepNames {V S E : Type u} (l : List (FunctionDescription V S E)) : List String :=
  l.map (·.fn_name)

/-- Errors raised by builder configuration methods. -/
inductive BuilderErr : Type where
  | duplicateName (n : String)
  | unknownStep (n : String)
deriving DecidableEq

/-- `[i for i, fd in enumerate(l) if fd.fn_name == n][0]` as an `Option`. -/
def firstIdxNamed {V S E : Type u} : List (FunctionDescription V S E) → String → Option Nat
  | [], _ => none
  | fd :: rest, n =>
      if fd.fn_name = n then some 0 else (firstIdxNamed rest n).map (· + 1)

/-- `list.insert(i, x)` (clamping at the end, as Python does). -/
def pyInsert {α : Type u} : List α → Nat → α → List α
  | l, 0, x => x :: l
  | [], _ + 1, x => [x]
  | a :: rest, i + 1, x => a :: pyInsert rest i x

/-- `_Builder.add_fn`.  When `fn_name` is `None` a synthetic name
`fn_<idx>` is generated and the counter is incremented *before* the
uniqueness check.  On `raise`, the error carries the state at the raise. -/
def addFn {V S E : Type u} (b : BuilderState V S E) (fn : StepFn V S E)
    (feature_name : Option String) (fn_name : Option String) (stateful : Bool)
    (add_before_fn_name : Option String) :
    Except (BuilderErr × BuilderState V S E) (BuilderState V S E) :=
  let named : String × BuilderState V S E :=
    match fn_name with
    | none => ("fn_" ++ toString b.fn_idx, { b with fn_idx := b.fn_idx + 1 })
    | some n => (n, b)
  let n := named.1
  let b := named.2
  if n ∈ stepNames b.fns_list then
    .error (.duplicateName n, b)
  else
    let new_fd : FunctionDescription V S E :=
      { fn_name := n, fn := fn, feature_name := feature_name, stateful := stateful }
    if pyTruthy add_before_fn_name then
      let t := add_before_fn_name.getD ""
      match firstIdxNamed b.fns_list t with
      | none => .error (.unknownStep t, b)
      | some i => .ok { b with fns_list := pyInsert b.fns_list i new_fd }
    else
      .ok { b with fns_list := b.fns_list ++ [new_fd] }

/-- `_Builder.reset` (the name counter is not reset by the source). -/
def resetFn {V S E : Type u} (b : BuilderState V S E) : BuilderState V S E :=
  { b with fns_list := [] }

/-- `_Builder.remove_fn`. -/
def removeFn {V S E : Type u} (b : BuilderState V S E) (fn_name : String) :
    BuilderState V S E :=
  { b with fns_list := b.fns_list.filter (fun fd => !(fd.fn_name = fn_name)) }

/-- `_Builder.replace_fn`: replaces the function of the first step with
the given name, keeping its name, `feature_name` and `stateful` flag.
The `getD` default is unreachable: `firstIdxNamed` indices are in range. -/
def replaceFn {V S E : Type u} (b : BuilderState V S E) (fn_name : String)
    (fn : StepFn V S E) :
    Except (BuilderErr × BuilderState V S E) (BuilderState V S E) :=
  match firstIdxNamed b.fns_list fn_name with
  | none => .error (.unknownStep fn_name, b)
  | some i =>
      let fd := (b.fns_list.get? i).getD ⟨fn_name, fn, none, false⟩
      .ok { b with fns_list :=
        b.fns_list.set i ⟨fd.fn_name, fn, fd.feature_name, fd.stateful⟩ }

/-- `_Builder.get_summary` (`copy.copy` of the list: the value itself). -/
def getSummary {V S E : Type u} (b : BuilderState V S E) :
    List (FunctionDescription V S E) :=
  b.fns_list

/-! ## `_Builder.build`: the compiled process function -/

/-- Errors observable when running a compiled process function:
`keyError` is the `KeyError` raised by `output[fd.feature_name]` when the
target feature is absent, `typeError` is Python's `TypeError` for a step
function whose shape does not match its `feature_name`/`stateful` flags,
and `userError` is an exception raised inside a caller-supplied function. -/
inductive RunError (E : Type u) : Type u where
  | keyError (k : String)
  | typeError
  | userError (e : E)

/-- One iteration of the loop in `process_fn`: dispatch on the truthiness
of `fd.feature_name` and on `fd.stateful`. The Python expression
`output[fd.feature_name]` is evaluated before the call, so a missing key
raises `KeyError` regardless of the function's shape. -/
def applyFd {V S E : Type u} (fd : FunctionDescription V S E) (output : FDict V)
    (state : PState S) : Except (RunError E) (FDict V × PState S) :=
  if pyTruthy fd.feature_name then
    let name := fd.feature_name.getD ""
    match lookupA output name with
    | none => .error (.keyError name)
    | some v =>
      if fd.stateful then
        match fd.fn with
        | .statefulFeature f =>
            match f v state with
            | .ok (v', st') => .ok (setA output name v', st')
            | .error e => .error (.userError e)
        | _ => .error .typeError
      else
        match fd.fn with
        | .feature f =>
            match f v with
            | .ok v' => .ok (setA output name v', state)
            | .error e => .error (.userError e)
        | _ => .error .typeError
  else
    if fd.stateful then
      match fd.fn with
      | .statefulMapping f =>
          match f output state with
          | .ok r => .ok r
          | .error e => .error (.userError e)
      | _ => .error .typeError
    else
      match fd.fn with
      | .mapping f =>
          match f output with
          | .ok o => .ok (o, state)
          | .error e => .error (.userError e)
      | _ => .error .typeError

/-- The `for fd in fns_list` loop of `process_fn`, threading the evolving
features dict and the shared state; an exception aborts the loop. -/
def processSteps {V S E : Type u} :
    List (FunctionDescription V S E) → FDict V → PState S →
    Except (RunError E) (FDict V × PState S)
  | [], output, state => .ok (output, state)
  | fd :: rest, output, state =>
      match applyFd fd output state with
      | .error e => .error e
      | .ok (o, st) => processSteps rest o st

/-- The compiled `process_fn`: shallow-copies the input dict, starts from
a fresh empty `ProcessorState` and runs the captured steps in order. -/
def processFn {V S E : Type u} (fns_list : List (FunctionDescription V S E))
    (features_dict : FDict V) : Except (RunError E) (FDict V) :=
  match processSteps fns_list (dictCopy features_dict) ([] : PState S) with
  | .ok (output, _) => .ok output
  | .error e => .error e

/-- `_Builder.build`: the returned closure captures `tuple(self._fns_list)`,
a copy of the registry at build time. -/
def build {V S E : Type u} (b : BuilderState V S E) :
    FDict V → Except (RunError E) (FDict V) :=
  processFn b.fns_list

/-! ## Parser builders

Both `ExampleParserBuilder` and `SequenceExampleParserBuilder` run the
same registration algorithm; they differ only in the schema key
(`feature_name` vs `(feature_name, is_context)`) and in the physical
parse step.  The shared algorithm is written once over an abstract key
type `κ`; each builder's `parse_feature` instantiates it.  `T` is the
opaque type of `tf.io.*Feature` type descriptors. -/

/-- Schema state: `self._features` and `self._name_dict`. -/
structure ParserState (κ : Type u) (T : Type v) : Type (max u v) where
  features : List (κ × T)
  name_dict : List (κ × List String)

/-- `__init__` of either parser builder. -/
def initParser {κ : Type u} {T : Type v} : ParserState κ T := ⟨[], []⟩

/-- Errors raised by `parse_feature`. -/
inductive ParseRegErr : Type where
  | duplicateOutputName (n : String)
  | inconsistentFieldType
deriving DecidableEq

/-- `output_name = output_name or feature_name` (Python `or`: `None` and
`''` both fall back to `feature_name`). -/
def resolveOutputName (output_name : Option String) (feature_name : String) : String :=
  match output_name with
  | none => feature_name
  | some s => if s = "" then feature_name else s

/-- All output names already registered, in registration order
(the concatenation of `self._name_dict.values()`). -/
def allOutputNames {κ : Type u} {T : Type v} (s : ParserState κ T) : List String :=
  (s.name_dict.map (·.2)).flatten

/-- `self._name_dict[key].append(output_name)` preceded by
`self._name_dict[key] = []` when the key is absent. -/
def appendName {κ : Type u} [DecidableEq κ] (nd : List (κ × List String)) (key : κ)
    (n : String) : List (κ × List String) :=
  match lookupA nd key with
  | none => nd ++ [(key, [n])]
  | some ns => setA nd key (ns ++ [n])

/-- Shared body of `parse_feature` (name resolution already applied):
duplicate-output-name check over every name list, then the
`self._features` insert-or-type-check, then the `self._name_dict` append.
On `raise`, the error carries the state at the raise. -/
def parseFeatureCore {κ : Type u} {T : Type v} [DecidableEq κ] [DecidableEq T]
    (s : ParserState κ T) (key : κ) (output_name : String) (feature_type : T) :
    Except (ParseRegErr × ParserState κ T) (ParserState κ T) :=
  if s.name_dict.any (fun p => decide (output_name ∈ p.2)) then
    .error (.duplicateOutputName output_name, s)
  else
    match lookupA s.features key with
    | none =>
        .ok { features := setA s.features key feature_type,
              name_dict := appendName s.name_dict key output_name }
    | some t0 =>
        if t0 = feature_type then
          .ok { features := s.features,
                name_dict := appendName s.name_dict key output_name }
        else
          .error (.inconsistentFieldType, s)

/-- `ExampleParserBuilder.parse_feature`: the schema key is the feature
name alone. -/
def ExampleParserBuilder.parse_feature {T : Type v} [DecidableEq T]
    (s : ParserState String T) (feature_name : String) (feature_type : T)
    (output_name : Option String) :
    Except (ParseRegErr × ParserState String T) (ParserState String T) :=
  parseFeatureCore s feature_name (resolveOutputName output_name feature_name)
    feature_type

/-- `SequenceExampleParserBuilder.parse_feature`: the schema key is
`(feature_name, is_context)`. -/
def SequenceExampleParserBuilder.parse_feature {T : Type v} [DecidableEq T]
    (s : ParserState (String × Bool) T) (feature_name : String) (feature_type : T)
    (output_name : Option String) (is_context : Bool) :
    Except (ParseRegErr × ParserState (String × Bool) T)
      (ParserState (String × Bool) T) :=
  parseFeatureCore s (feature_name, is_context)
    (resolveOutputName output_name feature_name) feature_type

/-- `ExampleParserBuilder._parse_fn`.  `tfParse` is the opaque
`tf.io.parse_single_example` value of one feature: it may depend on the
raw record, the feature name and the declared feature type.  The
`tf.identity` copy is value-level identity.  The outer loop runs over the
parsed dict (whose entries mirror `self._features`), the inner loop
writes the parsed value under every registered output name. -/
def ExampleParserBuilder.parse_fn {R : Type u} {T V : Type v} [DecidableEq T]
    (tfParse : R → String → T → V) (s : ParserState String T) (raw_data : R) :
    FDict V :=
  let parsed : List (String × V) :=
    s.features.map (fun kt => (kt.1, tfParse raw_data kt.1 kt.2))
  parsed.foldl
    (fun output kf =>
      ((lookupA s.name_dict kf.1).getD []).foldl
        (fun o output_name => setA o output_name kf.2) output)
    []

/-- `SequenceExampleParserBuilder._parse_fn`.  `tfParse` is the opaque
`tf.io.parse_single_sequence_example` value of one feature (raw record,
feature name, context flag, declared type).  Context features are split
from sequence features, parsed, and the two parsed dicts are renamed in
order (context first), disambiguating each `name_dict` lookup with the
context flag. -/
def SequenceExampleParserBuilder.parse_fn {R : Type u} {T V : Type v} [DecidableEq T]
    (tfParse : R → String → Bool → T → V) (s : ParserState (String × Bool) T)
    (raw_data : R) : FDict V :=
  let context_features := s.features.filter (fun p => p.1.2)
  let sequence_features := s.features.filter (fun p => !p.1.2)
  let parsed_context : List (String × V) :=
    context_features.map (fun p => (p.1.1, tfParse raw_data p.1.1 true p.2))
  let parsed_sequence : List (String × V) :=
    sequence_features.map (fun p => (p.1.1, tfParse raw_data p.1.1 false p.2))
  let renameStep := fun (context : Bool) (parsed : List (String × V))
      (output : FDict V) =>
    parsed.foldl
      (fun o kf =>
        ((lookupA s.name_dict (kf.1, context)).getD []).foldl
          (fun o' output_name => setA o' output_name kf.2) o)
      output
  renameStep false parsed_sequence (renameStep true parsed_context [])

/-! ## `FilterBuilder` -/

/-- `Phase` enum. -/
inductive Phase : Type where
  | READ | PARSE | SAMPLE | DECODE | PREPROCESS | POSTPROCESS
deriving DecidableEq

/-- `FilterBuilder` state: per-phase lists of predicates.  A filter
function returns a boolean scalar tensor, modelled as `Bool`. -/
structure FilterBuilderState (V : Type u) : Type u where
  filter_fns : Phase → List (FDict V → Bool)

/-- `FilterBuilder.__init__`: every phase starts with an empty list. -/
def initFilterBuilder {V : Type u} : FilterBuilderState V := ⟨fun _ => []⟩

/-- `FilterBuilder.add_filter_fn`: append to the given phase's list. -/
def addFilterFn {V : Type u} (fb : FilterBuilderState V) (filter_fn : FDict V → Bool)
    (after_phase : Phase) : FilterBuilderState V :=
  ⟨fun p => if p = after_phase then fb.filter_fns p ++ [filter_fn]
            else fb.filter_fns p⟩

/-- `FilterBuilder.build`: the compiled per-phase filter folds the
registered predicates with logical AND starting from `True`
(`copy.copy` of the list captures the phase's predicates at build time). -/
def buildFilter {V : Type u} (fb : FilterBuilderState V) (after_phase : Phase) :
    FDict V → Bool :=
  let filter_fns := fb.filter_fns after_phase
  fun features_dict =>
    filter_fns.foldl (fun keep fn => keep && fn features_dict) true

/-! ## Builder operation traces

To state that a compiled pipeline is a snapshot unaffected by later
builder mutations, builder use is modelled as a trace of operations.  A
mutating call that raises leaves the builder in its at-raise state (the
exception is assumed caught by the driving code). -/

/-- A mutating `_Builder` call with its arguments. -/
inductive BOp (V S E : Type u) : Type u where
  | add (fn : StepFn V S E) (feature_name fn_name : Option String) (stateful : Bool)
      (add_before_fn_name : Option String)
  | reset
  | remove (fn_name : String)
  | replace (fn_name : String) (fn : StepFn V S E)

/-- The builder state after one mutating call (at-raise state on failure). -/
def applyBOp {V S E : Type u} (b : BuilderState V S E) : BOp V S E → BuilderState V S E
  | .add fn feature_name fn_name stateful add_before =>
      match addFn b fn feature_name fn_name stateful add_before with
      | .ok b' => b'
      | .error (_, b') => b'
  | .reset => resetFn b
  | .remove n => removeFn b n
  | .replace n fn =>
      match replaceFn b n fn with
      | .ok b' => b'
      | .error (_, b') => b'

/-- A trace step: either a mutating call or a `build()` call. -/
inductive TOp (V S E : Type u) : Type u where
  | call (op : BOp V S E)
  | build

/-- Builder state after a trace. -/
def applyTOps {V S E : Type u} (b : BuilderState V S E) : List (TOp V S E) → BuilderState V S E
  | [] => b
  | .call op :: rest => applyTOps (applyBOp b op) rest
  | .build :: rest => applyTOps b rest

/-- The compiled functions produced by the `build()` calls of a trace, in
order.  Each `build` captures a copy of the registry at that moment. -/
def snapshots {V S E : Type u} (b : BuilderState V S E) :
    List (TOp V S E) → List (FDict V → Except (RunError E) (FDict V))
  | [] => []
  | .call op :: rest => snapshots (applyBOp b op) rest
  | .build :: rest => build b :: snapshots b rest

/-- Number of `build()` calls in a trace. -/
def buildCount {V S E : Type u} : List (TOp V S E) → Nat
  | [] => 0
  | .call _ :: rest => buildCount rest
  | .build :: rest => buildCount rest + 1

/-! ## Association-list lemmas -/

theorem lookupA_setA_self {κ : Type u} {α : Type v} [DecidableEq κ]
    (d : List (κ × α)) (k : κ) (v : α) : lookupA (setA d k v) k = some v := by
  induction d with
  | nil => simp [setA, lookupA]
  | cons p rest ih =>
      by_cases h : p.1 = k
      · simp [setA, lookupA, h]
      · simp [setA, lookupA, h, ih]

theorem lookupA_setA_ne {κ : Type u} {α : Type v} [DecidableEq κ]
    (d : List (κ × α)) (k k' : κ) (v : α) (h : k' ≠ k) :
    lookupA (setA d k v) k' = lookupA d k' := by
  have hk : ¬ k = k' := fun h' => h h'.symm
  induction d with
  | nil => simp [setA, lookupA, hk]
  | cons p rest ih =>
      by_cases hp : p.1 = k
      · have hp' : ¬ p.1 = k' := by rw [hp]; exact hk
        simp [setA, lookupA, hp, hp', hk]
      · by_cases hp' : p.1 = k'
        · simp [setA, lookupA, hp, hp', h]
        · simp [setA, lookupA, hp, hp', ih]

theorem lookupA_append {κ : Type u} {α : Type v} [DecidableEq κ]
    (d1 d2 : List (κ × α)) (k : κ) :
    lookupA (d1 ++ d2) k =
      match lookupA d1 k with
      | some v => some v
      | none => lookupA d2 k := by
  induction d1 with
  | nil => simp [lookupA]
  | cons p rest ih =>
      by_cases h : p.1 = k
      · simp [lookupA, h]
      · simp [lookupA, h, ih]

theorem lookupA_eq_none_iff {κ : Type u} {α : Type v} [DecidableEq κ]
    (d : List (κ × α)) (k : κ) :
    lookupA d k = none ↔ k ∉ d.map (·.1) := by
  induction d with
  | nil => simp [lookupA]
  | cons p rest ih =>
      by_cases h : p.1 = k
      · simp [lookupA, h]
      · simp [lookupA, h, ih, Ne.symm h]

theorem lookupA_mem {κ : Type u} {α : Type v} [DecidableEq κ]
    {d : List (κ × α)} {k : κ} {v : α} (h : lookupA d k = some v) : (k, v) ∈ d := by
  induction d with
  | nil => simp [lookupA] at h
  | cons p rest ih =>
      by_cases hp : p.1 = k
      · simp only [lookupA, hp, if_pos] at h
        have hpv : p = (k, v) := by
          cases p
          simp only [Option.some.injEq] at h
          simp_all
        rw [← hpv]
        exact List.mem_cons_self p rest
      · simp only [lookupA, hp, if_neg, if_false] at h
        exact List.mem_cons_of_mem p (ih h)

theorem lookupA_of_mem_nodup {κ : Type u} {α : Type v} [DecidableEq κ]
    {d : List (κ × α)} {k : κ} {v : α} (hnd : (d.map (·.1)).Nodup)
    (hmem : (k, v) ∈ d) : lookupA d k = some v := by
  induction d with
  | nil => simp at hmem
  | cons p rest ih =>
      simp only [List.map_cons, List.nodup_cons] at hnd
      rcases List.mem_cons.mp hmem with h | h
      · rw [← h]
        simp [lookupA]
      · have hk : ¬ p.1 = k := by
          intro he
          apply hnd.1
          rw [he]
          exact List.mem_map.mpr ⟨(k, v), h, rfl⟩
        simp only [lookupA, hk, if_neg, if_false]
        exact ih hnd.2 h

theorem setA_eq_append_of_not_mem {κ : Type u} {α : Type v} [DecidableEq κ]
    (d : List (κ × α)) (k : κ) (v : α) (h : lookupA d k = none) :
    setA d k v = d ++ [(k, v)] := by
  induction d with
  | nil => simp [setA]
  | cons p rest ih =>
      by_cases hp : p.1 = k
      · simp [lookupA, hp] at h
      · simp only [lookupA, hp, if_neg, if_false] at h
        simp [setA, hp, ih h]

/-! ## The rename loops of the parse functions -/

/-- Inner loop of a `_parse_fn`: write `v` under every name in `ns`. -/
def writeNames {V : Type v} (ns : List String) (v : V) (init : FDict V) : FDict V :=
  ns.foldl (fun o output_name => setA o output_name v) init

/-- Outer loop of a `_parse_fn`, with the output-name assignment
abstracted as `Nf`. -/
def renameLoop {V : Type v} (Nf : String → List String) :
    List (String × V) → FDict V → FDict V
  | [], init => init
  | kf :: rest, init => renameLoop Nf rest (writeNames (Nf kf.1) kf.2 init)

theorem renameLoop_eq_foldl {V : Type v} (Nf : String → List String)
    (parsed : List (String × V)) :
    ∀ init : FDict V,
      renameLoop Nf parsed init =
        parsed.foldl
          (fun output kf =>
            (Nf kf.1).foldl (fun o output_name => setA o output_name kf.2) output)
          init := by
  induction parsed with
  | nil => intro init; rfl
  | cons kf rest ih => intro init; simp only [renameLoop, writeNames, List.foldl_cons, ih]

theorem writeNames_not_mem {V : Type v} (ns : List String) (v : V) (n : String) :
    ∀ init : FDict V, n ∉ ns →
      lookupA (writeNames ns v init) n = lookupA init n := by
  induction ns with
  | nil => intro init _; rfl
  | cons m ms ih =>
      intro init h
      simp only [writeNames, List.foldl_cons]
      rw [show ((ms.foldl (fun o output_name => setA o output_name v) (setA init m v))) =
            writeNames ms v (setA init m v) from rfl]
      rw [ih (setA init m v) (fun hm => h (List.mem_cons_of_mem _ hm))]
      exact lookupA_setA_ne init m n v
        (by intro he; exact h (by rw [he]; exact List.mem_cons_self m ms))

theorem writeNames_mem {V : Type v} (ns : List String) (v : V) (n : String) :
    ∀ init : FDict V, n ∈ ns →
      lookupA (writeNames ns v init) n = some v := by
  induction ns with
  | nil => intro init h; simp at h
  | cons m ms ih =>
      intro init h
      simp only [writeNames, List.foldl_cons]
      by_cases hm : n ∈ ms
      · exact ih (setA init m v) hm
      · have hnm : n = m := by
          rcases List.mem_cons.mp h with h1 | h1
          · exact h1
          · exact absurd h1 hm
        rw [show ((ms.foldl (fun o output_name => setA o output_name v) (setA init m v))) =
              writeNames ms v (setA init m v) from rfl]
        rw [writeNames_not_mem ms v n (setA init m v) hm, hnm]
        exact lookupA_setA_self init m v

theorem renameLoop_not_mem {V : Type v} (Nf : String → List String)
    (parsed : List (String × V)) (n : String) :
    ∀ init : FDict V, (∀ kf ∈ parsed, n ∉ Nf kf.1) →
      lookupA (renameLoop Nf parsed init) n = lookupA init n := by
  induction parsed with
  | nil => intro init _; rfl
  | cons kf rest ih =>
      intro init h
      rw [renameLoop, ih _ (fun x hx => h x (List.mem_cons_of_mem _ hx))]
      exact writeNames_not_mem (Nf kf.1) kf.2 n init (h kf (List.mem_cons_self _ _))

/-- Main rename-loop lemma: if `k` has a unique entry with value `v` in
the parsed dict and no other key's output names contain `n`, then after
the loop `n` is bound to `v`. -/
theorem renameLoop_lookup {V : Type v} (Nf : String → List String)
    (parsed : List (String × V)) (k : String) (v : V) (n : String) :
    ∀ init : FDict V,
      (parsed.map (·.1)).Nodup →
      lookupA parsed k = some v →
      n ∈ Nf k →
      (∀ k' ∈ parsed.map (·.1), k' ≠ k → n ∉ Nf k') →
      lookupA (renameLoop Nf parsed init) n = some v := by
  induction parsed with
  | nil => intro init _ hk _ _; simp [lookupA] at hk
  | cons kf rest ih =>
      intro init hnd hk hn hother
      simp only [List.map_cons, List.nodup_cons] at hnd
      by_cases hkf : kf.1 = k
      · have hv : kf.2 = v := by
          simp only [lookupA, hkf, if_pos] at hk
          exact Option.some.inj hk
        have hrest : ∀ x ∈ rest, n ∉ Nf x.1 := by
          intro x hx
          apply hother x.1 (List.mem_map.mpr ⟨x, List.mem_cons_of_mem kf hx, rfl⟩)
          intro he
          exact hnd.1 (by rw [hkf, ← he]; exact List.mem_map.mpr ⟨x, hx, rfl⟩)
        rw [renameLoop, renameLoop_not_mem Nf rest n _ hrest, ← hv]
        exact writeNames_mem (Nf kf.1) kf.2 n init (by rw [hkf]; exact hn)
      · have hk' : lookupA rest k = some v := by
          simp only [lookupA, hkf, if_neg, if_false] at hk
          exact hk
        rw [renameLoop]
        exact ih _ hnd.2 hk' hn
          (fun k' hk'' hne =>
            hother k' (by simp only [List.map_cons]; exact List.mem_cons_of_mem _ hk'') hne)

theorem lookupA_map_entry {κ : Type u} {α β : Type v} [DecidableEq κ]
    (l : List (κ × α)) (g : κ → α → β) (k : κ) :
    lookupA (l.map (fun p => (p.1, g p.1 p.2))) k = (lookupA l k).map (g k) := by
  induction l with
  | nil => rfl
  | cons p rest ih =>
      by_cases h : p.1 = k
      · simp [lookupA, h]
      · simp [lookupA, h, ih]

theorem map_entry_keys {κ : Type u} {α β : Type v}
    (l : List (κ × α)) (g : κ → α → β) :
    (l.map (fun p => (p.1, g p.1 p.2))).map (·.1) = l.map (·.1) := by
  induction l with
  | nil => rfl
  | cons p rest ih => simp [ih]

/-- `ExampleParserBuilder._parse_fn` is the rename loop over the parsed
flat schema. -/
theorem example_parse_fn_eq_renameLoop {R : Type u} {T V : Type v} [DecidableEq T]
    (tfParse : R → String → T → V) (s : ParserState String T) (raw : R) :
    ExampleParserBuilder.parse_fn tfParse s raw =
      renameLoop (fun k => (lookupA s.name_dict k).getD [])
        (s.features.map (fun kt => (kt.1, tfParse raw kt.1 kt.2))) [] := by
  rw [renameLoop_eq_foldl]
  rfl

/-- `SequenceExampleParserBuilder._parse_fn` is the context rename loop
followed by the sequence rename loop. -/
theorem sequence_parse_fn_eq_renameLoop {R : Type u} {T V : Type v} [DecidableEq T]
    (tfParse : R → String → Bool → T → V) (s : ParserState (String × Bool) T)
    (raw : R) :
    SequenceExampleParserBuilder.parse_fn tfParse s raw =
      renameLoop (fun k => (lookupA s.name_dict (k, false)).getD [])
        ((s.features.filter (fun p => !p.1.2)).map
          (fun p => (p.1.1, tfParse raw p.1.1 false p.2)))
        (renameLoop (fun k => (lookupA s.name_dict (k, true)).getD [])
          ((s.features.filter (fun p => p.1.2)).map
            (fun p => (p.1.1, tfParse raw p.1.1 true p.2))) []) := by
  rw [renameLoop_eq_foldl, renameLoop_eq_foldl]
  rfl

/-- If the parse output binds each registered output name of a schema key
to the parsed value of that key, provided the schema keys are distinct
and no other key owns the name (flat `tf.train.Example` case). -/
theorem example_parse_fn_lookup {R : Type u} {T V : Type v} [DecidableEq T]
    (tfParse : R → String → T → V) (s : ParserState String T) (raw : R)
    (k : String) (t : T) (n : String)
    (hnd : (s.features.map (·.1)).Nodup)
    (hk : lookupA s.features k = some t)
    (hn : n ∈ (lookupA s.name_dict k).getD [])
    (hother : ∀ k', k' ≠ k → n ∉ (lookupA s.name_dict k').getD []) :
    lookupA (ExampleParserBuilder.parse_fn tfParse s raw) n = some (tfParse raw k t) := by
  rw [example_parse_fn_eq_renameLoop]
  apply renameLoop_lookup _ _ k (tfParse raw k t) n []
  · rw [map_entry_keys]
    exact hnd
  · rw [lookupA_map_entry s.features (fun a b => tfParse raw a b) k, hk]
    rfl
  · exact hn
  · intro k' _ hne
    exact hother k' hne


theorem nodup_filter_fst {T : Type v} (l : List ((String × Bool) × T))
    (q : (String × Bool) × T → Bool) (c : Bool)
    (hq : ∀ p, q p = true → p.1.2 = c)
    (hnd : (l.map (·.1)).Nodup) :
    ((l.filter q).map (·.1.1)).Nodup := by
  induction l with
  | nil => simp
  | cons p rest ih =>
      simp only [List.map_cons, List.nodup_cons] at hnd
      by_cases hp : q p = true
      · rw [List.filter_cons_of_pos hp]
        simp only [List.map_cons, List.nodup_cons]
        refine ⟨?_, ih hnd.2⟩
        intro hmem
        rcases List.mem_map.mp hmem with ⟨x, hx, hxx⟩
        have hxf := List.of_mem_filter hx
        have hxr := List.mem_of_mem_filter hx
        have hx1 : x.1 = p.1 :=
          Prod.ext_iff.mpr ⟨hxx, (hq x hxf).trans (hq p hp).symm⟩
        exact hnd.1 (hx1 ▸ List.mem_map.mpr ⟨x, hxr, rfl⟩)
      · rw [List.filter_cons_of_neg (by simpa using hp)]
        exact ih hnd.2

theorem keys_of_parse_map {T V : Type v} (l : List ((String × Bool) × T))
    (g : (String × Bool) × T → V) :
    (l.map (fun p => (p.1.1, g p))).map (·.1) = l.map (·.1.1) := by
  induction l with
  | nil => rfl
  | cons a rest ih => simp [ih]

/-- The grouped (`tf.train.SequenceExample`) analogue of
`example_parse_fn_lookup`. -/
theorem sequence_parse_fn_lookup {R : Type u} {T V : Type v} [DecidableEq T]
    (tfParse : R → String → Bool → T → V) (s : ParserState (String × Bool) T)
    (raw : R) (fname : String) (c : Bool) (t : T) (n : String)
    (hnd : (s.features.map (·.1)).Nodup)
    (hk : lookupA s.features (fname, c) = some t)
    (hn : n ∈ (lookupA s.name_dict (fname, c)).getD [])
    (hother : ∀ k', k' ≠ (fname, c) → n ∉ (lookupA s.name_dict k').getD []) :
    lookupA (SequenceExampleParserBuilder.parse_fn tfParse s raw) n
      = some (tfParse raw fname c t) := by
  rw [sequence_parse_fn_eq_renameLoop]
  have hmem := lookupA_mem hk
  cases c with
  | true =>
      have hseq : ∀ kf ∈ (s.features.filter (fun p => !p.1.2)).map
          (fun p => (p.1.1, tfParse raw p.1.1 false p.2)),
          n ∉ (lookupA s.name_dict (kf.1, false)).getD [] := by
        intro kf hkf
        rcases List.mem_map.mp hkf with ⟨x, _, hxe⟩
        rw [← hxe]
        exact hother (x.1.1, false) (by simp)
      rw [renameLoop_not_mem _ _ _ _ hseq]
      apply renameLoop_lookup _ _ fname (tfParse raw fname true t) n []
      · rw [keys_of_parse_map]
        exact nodup_filter_fst s.features _ true (fun p hp => hp) hnd
      · apply lookupA_of_mem_nodup
        · rw [keys_of_parse_map]
          exact nodup_filter_fst s.features _ true (fun p hp => hp) hnd
        · exact List.mem_map.mpr ⟨((fname, true), t), List.mem_filter.mpr ⟨hmem, rfl⟩, rfl⟩
      · exact hn
      · intro k' _ hne
        exact hother (k', true) (by simp [hne])
  | false =>
      apply renameLoop_lookup _ _ fname (tfParse raw fname false t) n _
      · rw [keys_of_parse_map]
        exact nodup_filter_fst s.features _ false (fun p hp => by simpa using hp) hnd
      · apply lookupA_of_mem_nodup
        · rw [keys_of_parse_map]
          exact nodup_filter_fst s.features _ false (fun p hp => by simpa using hp) hnd
        · exact List.mem_map.mpr ⟨((fname, false), t), List.mem_filter.mpr ⟨hmem, rfl⟩, rfl⟩
      · exact hn
      · intro k' _ hne
        exact hother (k', false) (by simp [hne])

/-! ## Registration bookkeeping for the parser builders -/

/-- The duplicate-name loop of `parse_feature` finds `n` iff `n` is among
all previously registered output names. -/
theorem any_name_iff {κ : Type u} {T : Type v} (s : ParserState κ T) (n : String) :
    (s.name_dict.any (fun p => decide (n ∈ p.2)) = true) ↔ n ∈ allOutputNames s := by
  simp only [allOutputNames, List.any_eq_true, List.mem_flatten, List.mem_map,
    decide_eq_true_eq]
  constructor
  · rintro ⟨p, hp, hn⟩
    exact ⟨p.2, ⟨p, hp, rfl⟩, hn⟩
  · rintro ⟨l, ⟨p, hp, he⟩, hn⟩
    exact ⟨p, hp, he ▸ hn⟩

theorem parseFeatureCore_dup {κ : Type u} {T : Type v} [DecidableEq κ] [DecidableEq T]
    (s : ParserState κ T) (key : κ) (n : String) (t : T)
    (h : n ∈ allOutputNames s) :
    parseFeatureCore s key n t = .error (.duplicateOutputName n, s) := by
  rw [parseFeatureCore, if_pos ((any_name_iff s n).mpr h)]

theorem parseFeatureCore_type_error {κ : Type u} {T : Type v} [DecidableEq κ]
    [DecidableEq T] (s : ParserState κ T) (key : κ) (n : String) (t t0 : T)
    (hfresh : n ∉ allOutputNames s) (h : lookupA s.features key = some t0)
    (hne : t0 ≠ t) :
    parseFeatureCore s key n t = .error (.inconsistentFieldType, s) := by
  rw [parseFeatureCore,
    if_neg (fun hc => hfresh ((any_name_iff s n).mp hc)), h]
  simp [hne]

theorem parseFeatureCore_ok_new {κ : Type u} {T : Type v} [DecidableEq κ]
    [DecidableEq T] (s : ParserState κ T) (key : κ) (n : String) (t : T)
    (hfresh : n ∉ allOutputNames s) (h : lookupA s.features key = none) :
    parseFeatureCore s key n t =
      .ok ⟨setA s.features key t, appendName s.name_dict key n⟩ := by
  rw [parseFeatureCore, if_neg (fun hc => hfresh ((any_name_iff s n).mp hc)), h]

theorem parseFeatureCore_ok_existing {κ : Type u} {T : Type v} [DecidableEq κ]
    [DecidableEq T] (s : ParserState κ T) (key : κ) (n : String) (t : T)
    (hfresh : n ∉ allOutputNames s) (h : lookupA s.features key = some t) :
    parseFeatureCore s key n t =
      .ok ⟨s.features, appendName s.name_dict key n⟩ := by
  rw [parseFeatureCore, if_neg (fun hc => hfresh ((any_name_iff s n).mp hc)), h]
  simp

theorem lookupA_appendName_self {κ : Type u} [DecidableEq κ]
    (nd : List (κ × List String)) (key : κ) (n : String) :
    lookupA (appendName nd key n) key = some ((lookupA nd key).getD [] ++ [n]) := by
  unfold appendName
  cases h : lookupA nd key with
  | none =>
      rw [lookupA_append, h]
      simp [lookupA]
  | some ns =>
      simp [lookupA_setA_self]

theorem lookupA_appendName_ne {κ : Type u} [DecidableEq κ]
    (nd : List (κ × List String)) (key k' : κ) (n : String) (hne : k' ≠ key) :
    lookupA (appendName nd key n) k' = lookupA nd k' := by
  unfold appendName
  cases h : lookupA nd key with
  | none =>
      rw [lookupA_append]
      cases h' : lookupA nd k' with
      | none =>
          show lookupA [(key, [n])] k' = none
          simp only [lookupA]
          rw [if_neg (fun hc : key = k' => hne hc.symm)]
      | some ns => rfl
  | some ns => exact lookupA_setA_ne nd key k' (ns ++ [n]) hne

theorem lookupA_sub_flatten {κ : Type u} [DecidableEq κ]
    {nd : List (κ × List String)} {k : κ} {ns : List String}
    (h : lookupA nd k = some ns) : ∀ x ∈ ns, x ∈ (nd.map (·.2)).flatten := by
  intro x hx
  exact List.mem_flatten.mpr ⟨ns, List.mem_map.mpr ⟨(k, ns), lookupA_mem h, rfl⟩, hx⟩

theorem mem_flatten_setA_append {κ : Type u} [DecidableEq κ]
    (nd : List (κ × List String)) (key : κ) (ns : List String) (n x : String) :
    lookupA nd key = some ns →
    (x ∈ ((setA nd key (ns ++ [n])).map (·.2)).flatten ↔
      x ∈ (nd.map (·.2)).flatten ∨ x = n) := by
  induction nd with
  | nil => intro h; simp [lookupA] at h
  | cons p rest ih =>
      intro h
      by_cases hp : p.1 = key
      · simp only [lookupA, hp, if_pos, Option.some.injEq] at h
        subst h
        simp only [setA, hp, if_pos, List.map_cons, List.flatten_cons,
          List.mem_append, List.mem_singleton]
        tauto
      · simp only [lookupA, hp, if_neg, if_false] at h
        simp only [setA, hp, if_neg, if_false, List.map_cons, List.flatten_cons,
          List.mem_append, ih h]
        tauto

/-- Membership in the output names after one `name_dict` append. -/
theorem mem_flatten_appendName {κ : Type u} [DecidableEq κ]
    (nd : List (κ × List String)) (key : κ) (n x : String) :
    x ∈ ((appendName nd key n).map (·.2)).flatten ↔
      x ∈ (nd.map (·.2)).flatten ∨ x = n := by
  unfold appendName
  cases h : lookupA nd key with
  | none =>
      rw [List.map_append, List.flatten_append (nd.map (·.2)) ([(key, [n])].map (·.2))]
      simp
  | some ns => exact mem_flatten_setA_append nd key ns n x h

/-- Pairwise disjointness of the per-key output-name lists, from global
uniqueness of output names. -/
theorem flatten_nodup_disjoint {κ : Type u} [DecidableEq κ]
    (nd : List (κ × List String))
    (hf : ((nd.map (·.2)).flatten).Nodup)
    {k k' : κ} {ns ns' : List String}
    (h1 : lookupA nd k = some ns) (h2 : lookupA nd k' = some ns')
    (hne : k ≠ k') {n : String} (hn : n ∈ ns) : n ∉ ns' := by
  induction nd with
  | nil => simp [lookupA] at h1
  | cons p rest ih =>
      simp only [List.map_cons, List.flatten_cons, List.nodup_append] at hf
      by_cases hp1 : p.1 = k
      · simp only [lookupA, hp1, if_pos, Option.some.injEq] at h1
        have hk' : ¬ p.1 = k' := by rw [hp1]; exact hne
        simp only [lookupA, hk', if_neg, if_false] at h2
        intro hc
        exact hf.2.2 (h1 ▸ hn) (lookupA_sub_flatten h2 n hc)
      · by_cases hp2 : p.1 = k'
        · simp only [lookupA, hp2, if_pos, Option.some.injEq] at h2
          simp only [lookupA, hp1, if_neg, if_false] at h1
          intro hc
          exact hf.2.2 (h2 ▸ hc) (lookupA_sub_flatten h1 n hn)
        · simp only [lookupA, hp1, hp2, if_neg, if_false] at h1 h2
          exact ih hf.2.1 h1 h2

/-- Schema invariant of the parser builders: distinct schema keys,
`name_dict` keyed exactly like `features`, and globally distinct output
names.  It holds for the empty builder and is preserved by successful
registrations. -/
def WfParser {κ : Type u} {T : Type v} (s : ParserState κ T) : Prop :=
  (s.features.map (·.1)).Nodup ∧
  s.name_dict.map (·.1) = s.features.map (·.1) ∧
  (allOutputNames s).Nodup

theorem nodup_keys_setA_new {κ : Type u} {T : Type v} [DecidableEq κ]
    (d : List (κ × T)) (k : κ) (v : T) (h : lookupA d k = none)
    (hnd : (d.map (·.1)).Nodup) : ((setA d k v).map (·.1)).Nodup := by
  rw [setA_eq_append_of_not_mem d k v h, List.map_append]
  have hk : k ∉ d.map (·.1) := (lookupA_eq_none_iff d k).mp h
  simp [List.nodup_append, hnd, hk, List.disjoint_singleton]

/-- Registering the same schema key twice with the same type and two
fresh, distinct output names succeeds, appends both names to that key's
output-name list, and keeps every other key's list unchanged and
disjoint from it. -/
theorem register_twice_core {κ : Type u} {T : Type v} [DecidableEq κ] [DecidableEq T]
    (s : ParserState κ T) (key : κ) (n1 n2 : String) (t : T)
    (hwf : WfParser s) (h1 : n1 ∉ allOutputNames s) (h2 : n2 ∉ allOutputNames s)
    (h12 : n1 ≠ n2)
    (htype : lookupA s.features key = none ∨ lookupA s.features key = some t) :
    ∃ s1 s2 : ParserState κ T,
      parseFeatureCore s key n1 t = .ok s1 ∧
      parseFeatureCore s1 key n2 t = .ok s2 ∧
      (s2.features.map (·.1)).Nodup ∧
      lookupA s2.features key = some t ∧
      lookupA s2.name_dict key =
        some ((lookupA s.name_dict key).getD [] ++ [n1] ++ [n2]) ∧
      (∀ n, n ∈ (lookupA s2.name_dict key).getD [] →
        ∀ k', k' ≠ key → n ∉ (lookupA s2.name_dict k').getD []) := by
  obtain ⟨hndKeys, _, hNames⟩ := hwf
  have hfacts : ∃ feat1 : List (κ × T),
      parseFeatureCore s key n1 t = .ok ⟨feat1, appendName s.name_dict key n1⟩ ∧
      lookupA feat1 key = some t ∧ (feat1.map (·.1)).Nodup := by
    rcases htype with hnone | hsome
    · exact ⟨setA s.features key t, parseFeatureCore_ok_new s key n1 t h1 hnone,
        lookupA_setA_self s.features key t,
        nodup_keys_setA_new s.features key t hnone hndKeys⟩
    · exact ⟨s.features, parseFeatureCore_ok_existing s key n1 t h1 hsome, hsome,
        hndKeys⟩
  obtain ⟨feat1, e1, hf1, hnd1⟩ := hfacts
  have hfresh2 : n2 ∉ allOutputNames
      (⟨feat1, appendName s.name_dict key n1⟩ : ParserState κ T) := by
    intro hc
    rcases (mem_flatten_appendName s.name_dict key n1 n2).mp hc with hc' | hc'
    · exact h2 hc'
    · exact h12 hc'.symm
  have e2 := parseFeatureCore_ok_existing
    (⟨feat1, appendName s.name_dict key n1⟩ : ParserState κ T) key n2 t hfresh2 hf1
  have hself : lookupA (appendName (appendName s.name_dict key n1) key n2) key
      = some ((lookupA s.name_dict key).getD [] ++ [n1] ++ [n2]) := by
    rw [lookupA_appendName_self, lookupA_appendName_self]
    simp only [Option.getD_some]
  refine ⟨⟨feat1, appendName s.name_dict key n1⟩,
    ⟨feat1, appendName (appendName s.name_dict key n1) key n2⟩,
    e1, e2, hnd1, hf1, hself, ?_⟩
  intro n hn k' hk'
  have hlook2 : lookupA (appendName (appendName s.name_dict key n1) key n2) k'
      = lookupA s.name_dict k' := by
    rw [lookupA_appendName_ne _ key k' n2 hk', lookupA_appendName_ne _ key k' n1 hk']
  rw [hlook2]
  rw [hself] at hn
  simp only [Option.getD_some] at hn
  cases hL : lookupA s.name_dict k' with
  | none => simp
  | some ns' =>
      simp only [Option.getD_some]
      rcases List.mem_append.mp hn with hmid | hlast
      · rcases List.mem_append.mp hmid with hold | hn1
        · cases hK : lookupA s.name_dict key with
          | none => rw [hK] at hold; simp at hold
          | some old =>
              rw [hK] at hold
              simp only [Option.getD_some] at hold
              exact flatten_nodup_disjoint s.name_dict hNames hK hL
                (fun hc => hk' hc.symm) hold
        · intro hc
          rw [List.mem_singleton.mp hn1] at hc
          exact h1 (lookupA_sub_flatten hL n1 hc)
      · intro hc
        rw [List.mem_singleton.mp hlast] at hc
        exact h2 (lookupA_sub_flatten hL n2 hc)

/-! ## Lemmas about the compiled process function -/

theorem processSteps_append {V S E : Type u} (l1 l2 : List (FunctionDescription V S E)) :
    ∀ (output : FDict V) (state : PState S),
      processSteps (l1 ++ l2) output state =
        match processSteps l1 output state with
        | .error e => .error e
        | .ok (o, st) => processSteps l2 o st := by
  induction l1 with
  | nil => intro o st; rfl
  | cons fd rest ih =>
      intro o st
      simp only [List.cons_append, processSteps]
      cases happly : applyFd fd o st with
      | error e => rfl
      | ok r => exact ih r.1 r.2 ▸ by cases r; rfl

/-- Does the shape of a step's function match how the
`feature_name`/`stateful` flags will make `process_fn` call it? -/
def tagMatches {V S E : Type u} (fd : FunctionDescription V S E) : Bool :=
  if pyTruthy fd.feature_name then
    if fd.stateful then
      match fd.fn with | .statefulFeature _ => true | _ => false
    else
      match fd.fn with | .feature _ => true | _ => false
  else
    if fd.stateful then
      match fd.fn with | .statefulMapping _ => true | _ => false
    else
      match fd.fn with | .mapping _ => true | _ => false

/-- A step whose function shape matches its flags can only fail with a
missing-key error or with an error raised by the caller's function. -/
theorem applyFd_error_classify {V S E : Type u} (fd : FunctionDescription V S E)
    (o : FDict V) (st : PState S) (e : RunError E)
    (htag : tagMatches fd = true) (h : applyFd fd o st = .error e) :
    (∃ u, e = .userError u) ∨ (∃ k, e = .keyError k) := by
  cases e with
  | userError u => exact Or.inl ⟨u, rfl⟩
  | keyError k => exact Or.inr ⟨k, rfl⟩
  | typeError =>
      exfalso
      unfold applyFd at h
      unfold tagMatches at htag
      cases hT : pyTruthy fd.feature_name <;> rw [hT] at h htag <;>
        simp only [Bool.false_eq_true, if_false, if_true] at h htag
      · cases hS : fd.stateful <;> rw [hS] at h htag <;>
          simp only [Bool.false_eq_true, if_false, if_true] at h htag
        · cases hfn : fd.fn <;> rw [hfn] at h htag <;> simp at htag
          case mapping f => cases hr : f o <;> simp [hr] at h
        · cases hfn : fd.fn <;> rw [hfn] at h htag <;> simp at htag
          case statefulMapping f => cases hr : f o st <;> simp [hr] at h
      · cases hl : lookupA o (fd.feature_name.getD "") <;> rw [hl] at h <;>
          simp only [] at h
        · simp at h
        · case some val =>
            cases hS : fd.stateful <;> rw [hS] at h htag <;>
              simp only [Bool.false_eq_true, if_false, if_true] at h htag
            · cases hfn : fd.fn <;> rw [hfn] at h htag <;> simp at htag
              case feature f => cases hr : f val <;> simp [hr] at h
            · cases hfn : fd.fn <;> rw [hfn] at h htag <;> simp at htag
              case statefulFeature f => cases hr : f val st <;> simp [hr] at h

theorem processSteps_error_classify {V S E : Type u}
    (fns : List (FunctionDescription V S E)) :
    ∀ (o : FDict V) (st : PState S) (e : RunError E),
      (∀ fd ∈ fns, tagMatches fd = true) →
      processSteps fns o st = .error e →
      (∃ u, e = .userError u) ∨ (∃ k, e = .keyError k) := by
  induction fns with
  | nil => intro o st e _ h; simp [processSteps] at h
  | cons fd rest ih =>
      intro o st e htag h
      rw [processSteps] at h
      cases happly : applyFd fd o st with
      | error e' =>
          rw [happly] at h
          simp only [Except.error.injEq] at h
          exact h ▸ applyFd_error_classify fd o st e'
            (htag fd (List.mem_cons_self _ _)) happly
      | ok r =>
          rw [happly] at h
          exact ih r.1 r.2 e (fun fd' hfd' => htag fd' (List.mem_cons_of_mem _ hfd')) h

/-- Sequential invocations of compiled process functions, in order. -/
def invokeAll {V S E : Type u} (fns_list : List (FunctionDescription V S E))
    (inputs : List (FDict V)) : List (Except (RunError E) (FDict V)) :=
  inputs.map (processFn fns_list)

/-! ## Lemmas about builder operation traces -/

theorem snapshots_append {V S E : Type u} (ops1 ops2 : List (TOp V S E)) :
    ∀ b : BuilderState V S E,
      snapshots b (ops1 ++ ops2)
        = snapshots b ops1 ++ snapshots (applyTOps b ops1) ops2 := by
  induction ops1 with
  | nil => intro b; rfl
  | cons op rest ih =>
      intro b
      cases op with
      | call m =>
          simp only [List.cons_append, snapshots, applyTOps]
          exact ih (applyBOp b m)
      | build =>
          simp only [List.cons_append, snapshots, applyTOps]
          exact congrArg (fun l => build b :: l) (ih b)

theorem snapshots_length {V S E : Type u} (ops : List (TOp V S E)) :
    ∀ b : BuilderState V S E, (snapshots b ops).length = buildCount ops := by
  induction ops with
  | nil => intro b; rfl
  | cons op rest ih =>
      intro b
      cases op with
      | call m => simp only [snapshots, buildCount, ih]
      | build => simp only [snapshots, buildCount, List.length_cons, ih]

theorem getElem?_append_cons_length {α : Type u} (l1 : List α) (x : α) (l2 : List α) :
    (l1 ++ x :: l2)[l1.length]? = some x := by
  induction l1 with
  | nil => simp
  | cons a rest ih => simpa using ih

/-! ## Index bookkeeping for `add_fn` / `replace_fn` -/

theorem firstIdxNamed_eq_none {V S E : Type u} (l : List (FunctionDescription V S E))
    (n : String) (h : n ∉ stepNames l) : firstIdxNamed l n = none := by
  induction l with
  | nil => rfl
  | cons fd rest ih =>
      have h1 : ¬ fd.fn_name = n := by
        intro he
        exact h (by rw [← he]; exact List.mem_map.mpr ⟨fd, List.mem_cons_self _ _, rfl⟩)
      have h2 : n ∉ stepNames rest := by
        intro hm
        rcases List.mem_map.mp hm with ⟨fd', hfd', he⟩
        exact h (List.mem_map.mpr ⟨fd', List.mem_cons_of_mem _ hfd', he⟩)
      rw [firstIdxNamed, if_neg h1, ih h2]
      rfl

theorem firstIdxNamed_append {V S E : Type u} (l1 : List (FunctionDescription V S E))
    (fd : FunctionDescription V S E) (l2 : List (FunctionDescription V S E))
    (n : String) (hfd : fd.fn_name = n) (h1 : n ∉ stepNames l1) :
    firstIdxNamed (l1 ++ fd :: l2) n = some l1.length := by
  induction l1 with
  | nil => simp [firstIdxNamed, hfd]
  | cons a rest ih =>
      have ha : ¬ a.fn_name = n := by
        intro he
        exact h1 (by rw [← he]; exact List.mem_map.mpr ⟨a, List.mem_cons_self _ _, rfl⟩)
      have h2 : n ∉ stepNames rest := by
        intro hm
        rcases List.mem_map.mp hm with ⟨fd', hfd', he⟩
        exact h1 (List.mem_map.mpr ⟨fd', List.mem_cons_of_mem _ hfd', he⟩)
      rw [List.cons_append, firstIdxNamed, if_neg ha, ih h2]
      rfl

theorem pyInsert_append {α : Type u} (l1 l2 : List α) (x : α) :
    pyInsert (l1 ++ l2) l1.length x = l1 ++ x :: l2 := by
  induction l1 with
  | nil => cases l2 <;> rfl
  | cons a rest ih => simp [pyInsert, ih]

theorem get?_append_cons_length {α : Type u} (l1 : List α) (x : α) (l2 : List α) :
    (l1 ++ x :: l2).get? l1.length = some x := by
  rw [List.get?_eq_getElem?]
  exact getElem?_append_cons_length l1 x l2

theorem set_append_cons_length {α : Type u} (l1 : List α) (fd x : α) (l2 : List α) :
    (l1 ++ fd :: l2).set l1.length x = l1 ++ x :: l2 := by
  induction l1 with
  | nil => rfl
  | cons a rest ih => simp [List.set, ih]

/-! ## Boolean fold lemmas for `FilterBuilder` -/

theorem foldl_and_eq_all {V : Type u} (fns : List (FDict V → Bool)) (d : FDict V) :
    ∀ b : Bool,
      fns.foldl (fun keep fn => keep && fn d) b = (b && fns.all (fun fn => fn d)) := by
  induction fns with
  | nil => intro b; simp
  | cons f rest ih =>
      intro b
      simp only [List.foldl_cons, List.all_cons, ih, Bool.and_assoc]

theorem all_perm_eq {α : Type u} (p : α → Bool) {l1 l2 : List α} (h : l1.Perm l2) :
    l1.all p = l2.all p := by
  induction h with
  | nil => rfl
  | cons x _ ih => simp [List.all_cons, ih]
  | swap x y l => cases hx : p x <;> cases hy : p y <;> simp [List.all_cons, hx, hy]
  | trans _ _ ih1 ih2 => exact ih1.trans ih2

/-! ## Concrete instances used by witnesses and counterexamples -/

/-- A caller-supplied whole-mapping step that never raises. -/
def exStep : StepFn Nat Nat String := .mapping (fun d => .ok d)

/-- A caller-supplied single-feature step that never raises. -/
def exFeatStep : StepFn Nat Nat String := .feature (fun v => .ok (v + 1))

/-- State after a builder call, whether or not it raised. -/
def exOk (r : Except (BuilderErr × BuilderState Nat Nat String)
    (BuilderState Nat Nat String)) : BuilderState Nat Nat String :=
  match r with
  | .ok b => b
  | .error (_, b) => b

/-- Step names of the state of a successful builder call. -/
def okNames {V S E : Type u}
    (r : Except (BuilderErr × BuilderState V S E) (BuilderState V S E)) :
    Option (List String) :=
  match r with
  | .ok b => some (stepNames b.fns_list)
  | .error _ => none

/-- Error of a failed builder call. -/
def errOf {V S E : Type u}
    (r : Except (BuilderErr × BuilderState V S E) (BuilderState V S E)) :
    Option BuilderErr :=
  match r with
  | .ok _ => none
  | .error (e, _) => some e

def exA : BuilderState Nat Nat String :=
  exOk (addFn initBuilder exStep none (some "A") false none)

def exAB : BuilderState Nat Nat String :=
  exOk (addFn exA exStep none (some "B") false none)

def exABC : BuilderState Nat Nat String :=
  exOk (addFn exAB exStep none (some "C") false none)

def exFn0 : BuilderState Nat Nat String :=
  exOk (addFn initBuilder exStep none (some "fn_0") false none)

/-! ## Claim theorems -/

/-- C6: for every pipeline builder state, `add_step` with a `step_name`
that already exists in the registry fails with `DuplicateNameError`, and
the failed call leaves the builder — in particular the registry's
descriptor count and order — exactly as it was before the call. -/
theorem add_fn_duplicate_name_atomic {V S E : Type u} (b : BuilderState V S E)
    (fn : StepFn V S E) (feature_name : Option String) (n : String)
    (stateful : Bool) (add_before_fn_name : Option String)
    (h : n ∈ stepNames b.fns_list) :
    addFn b fn feature_name (some n) stateful add_before_fn_name
      = .error (.duplicateName n, b) := by
  unfold addFn
  simp [h]

/-- Witness for C6 at a concrete builder with steps A (duplicate "A"). -/
theorem add_fn_duplicate_name_atomic_witness :
    "A" ∈ stepNames exA.fns_list ∧
    addFn exA exStep none (some "A") false none = .error (.duplicateName "A", exA) :=
  ⟨by decide, add_fn_duplicate_name_atomic exA exStep none "A" false none (by decide)⟩

/-- C8: `replace_step` on a name not in the registry fails with
`UnknownStepError` and leaves the builder unchanged; on an existing name
it substitutes only the function of the (first) step with that name,
preserving its position, name, target-field name and stateful flag, and
leaving every other descriptor unchanged. -/
theorem replace_fn_spec {V S E : Type u} (b : BuilderState V S E) (n : String)
    (fn : StepFn V S E) :
    (n ∉ stepNames b.fns_list → replaceFn b n fn = .error (.unknownStep n, b))
    ∧ (∀ l1 fd l2, b.fns_list = l1 ++ fd :: l2 → fd.fn_name = n →
        n ∉ stepNames l1 →
        replaceFn b n fn = .ok { b with
          fns_list := l1 ++ ⟨fd.fn_name, fn, fd.feature_name, fd.stateful⟩ :: l2 }) := by
  constructor
  · intro h
    unfold replaceFn
    rw [firstIdxNamed_eq_none b.fns_list n h]
  · intro l1 fd l2 hdecomp hname hnotin
    unfold replaceFn
    rw [hdecomp, firstIdxNamed_append l1 fd l2 n hname hnotin]
    simp only [get?_append_cons_length, Option.getD_some, set_append_cons_length]

/-- Witness for C8: replacing "B" in the A, B, C builder swaps only its
function; replacing "Z" fails. -/
theorem replace_fn_spec_witness :
    replaceFn exABC "Z" exFeatStep = .error (.unknownStep "Z", exABC) ∧
    replaceFn exABC "B" exFeatStep = .ok { exABC with
      fns_list := [⟨"A", exStep, none, false⟩] ++
        ⟨"B", exFeatStep, none, false⟩ :: [⟨"C", exStep, none, false⟩] } :=
  ⟨(replace_fn_spec exABC "Z" exFeatStep).1 (by decide),
   (replace_fn_spec exABC "B" exFeatStep).2
     [⟨"A", exStep, none, false⟩] ⟨"B", exStep, none, false⟩
     [⟨"C", exStep, none, false⟩] rfl rfl (by decide)⟩

/-- C7 counterexample: the synthetic name is not always fresh.  After the
user registers a step explicitly named "fn_0", an `add_step` with the
name omitted generates "fn_0" again and fails the uniqueness check with
`DuplicateNameError`, contradicting the claim that an auto-named call
never fails regardless of which names are already registered. -/
theorem add_fn_auto_name_collision :
    errOf (addFn exFn0 exStep none none false none)
      = some (.duplicateName "fn_0") := by decide

/-- C7 amended: an auto-named `add_step` generates `fn_<idx>` from a
counter that is bumped on every auto-named call (so successive synthetic
names are pairwise distinct); the call succeeds and appends whenever no
already-registered (necessarily user-supplied) step bears that exact
name, and fails with `DuplicateNameError` when one does. -/
theorem add_fn_auto_name_fresh {V S E : Type u} (b : BuilderState V S E)
    (fn : StepFn V S E) (feature_name : Option String) (stateful : Bool) :
    (("fn_" ++ toString b.fn_idx) ∉ stepNames b.fns_list →
      addFn b fn feature_name none stateful none
        = .ok ⟨b.fns_list ++ [⟨"fn_" ++ toString b.fn_idx, fn, feature_name, stateful⟩],
            b.fn_idx + 1⟩)
    ∧ (("fn_" ++ toString b.fn_idx) ∈ stepNames b.fns_list →
      addFn b fn feature_name none stateful none
        = .error (.duplicateName ("fn_" ++ toString b.fn_idx),
            { b with fn_idx := b.fn_idx + 1 })) := by
  constructor <;> intro h <;> unfold addFn <;> simp [h, pyTruthy]

/-- Witness for C7 amended: on the empty builder the generated name is
"fn_0", fresh, and the step is appended. -/
theorem add_fn_auto_name_fresh_witness :
    ("fn_0" ∉ stepNames (initBuilder (V := Nat) (S := Nat) (E := String)).fns_list) ∧
    addFn (initBuilder (V := Nat) (S := Nat) (E := String)) exStep none none false none
      = .ok ⟨[⟨"fn_0", exStep, none, false⟩], 1⟩ :=
  ⟨by decide,
   (add_fn_auto_name_fresh initBuilder exStep none false).1 (by decide)⟩

/-- C5 counterexample: with steps A, B, C registered, `add_step` naming
`insert_before` the empty string — a name that names no step in the
registry — does not fail with `UnknownStepError`: Python truthiness
treats `''` like `None` and the new step D is appended instead. -/
theorem insert_before_empty_string_appends :
    "" ∉ stepNames exABC.fns_list ∧
    okNames (addFn exABC exStep none (some "D") false (some ""))
      = some ["A", "B", "C", "D"] :=
  ⟨by decide, by decide⟩

/-- `add_fn` with an explicitly supplied name, in normal form. -/
theorem addFn_some_eq {V S E : Type u} (b : BuilderState V S E) (fn : StepFn V S E)
    (feature_name : Option String) (n : String) (stateful : Bool)
    (ab : Option String) :
    addFn b fn feature_name (some n) stateful ab =
      (if n ∈ stepNames b.fns_list then .error (.duplicateName n, b)
       else if pyTruthy ab then
         match firstIdxNamed b.fns_list (ab.getD "") with
         | none => .error (.unknownStep (ab.getD ""), b)
         | some i => .ok { b with
             fns_list := pyInsert b.fns_list i ⟨n, fn, feature_name, stateful⟩ }
       else .ok { b with
         fns_list := b.fns_list ++ [⟨n, fn, feature_name, stateful⟩] }) := rfl

/-- C5 amended: for add_step calls with distinct names, `inspect`
(`get_summary`) returns the descriptors in registration order: with a
falsy `insert_before` (`None` or `''`) the new step is appended; with a
non-empty `insert_before` naming an existing step the new step is
spliced immediately before the first step of that name; and with a
non-empty `insert_before` naming no registered step the call fails with
`UnknownStepError`, leaving the builder unchanged. -/
theorem add_fn_registration_order {V S E : Type u} (b : BuilderState V S E)
    (fn : StepFn V S E) (feature_name : Option String) (n : String)
    (stateful : Bool) (hn : n ∉ stepNames b.fns_list) :
    (∀ add_before, pyTruthy add_before = false →
      addFn b fn feature_name (some n) stateful add_before
        = .ok { b with fns_list := b.fns_list ++ [⟨n, fn, feature_name, stateful⟩] })
    ∧ (∀ t, t ≠ "" → t ∉ stepNames b.fns_list →
      addFn b fn feature_name (some n) stateful (some t)
        = .error (.unknownStep t, b))
    ∧ (∀ t l1 fd l2, t ≠ "" → b.fns_list = l1 ++ fd :: l2 → fd.fn_name = t →
        t ∉ stepNames l1 →
      addFn b fn feature_name (some n) stateful (some t)
        = .ok { b with fns_list := l1 ++ ⟨n, fn, feature_name, stateful⟩ :: fd :: l2 })
    ∧ getSummary b = b.fns_list := by
  refine ⟨?_, ?_, ?_, rfl⟩
  · intro add_before hab
    rw [addFn_some_eq, if_neg hn, if_neg (by simp [hab])]
  · intro t ht ht2
    have hpy : pyTruthy (some t) = true := by simp [pyTruthy, ht]
    rw [addFn_some_eq, if_neg hn, if_pos hpy]
    simp only [Option.getD_some, firstIdxNamed_eq_none b.fns_list t ht2]
  · intro t l1 fd l2 ht hdecomp hname hnotin
    have hpy : pyTruthy (some t) = true := by simp [pyTruthy, ht]
    have hn' : ¬ n ∈ stepNames (l1 ++ fd :: l2) := hdecomp ▸ hn
    rw [addFn_some_eq, hdecomp, if_neg hn', if_pos hpy]
    simp only [Option.getD_some, firstIdxNamed_append l1 fd l2 t hname hnotin,
      pyInsert_append l1 (fd :: l2)]

/-- Witness for C5 amended: add A, B, C, then D with insert_before = B
yields order A, D, B, C; insert_before = Z fails. -/
theorem add_fn_registration_order_witness :
    addFn exABC exStep none (some "D") false (some "B")
      = .ok { exABC with fns_list := [⟨"A", exStep, none, false⟩] ++
          ⟨"D", exStep, none, false⟩ :: ⟨"B", exStep, none, false⟩ ::
            [⟨"C", exStep, none, false⟩] } ∧
    okNames (addFn exABC exStep none (some "D") false (some "B"))
      = some ["A", "D", "B", "C"] ∧
    addFn exABC exStep none (some "D") false (some "Z")
      = .error (.unknownStep "Z", exABC) :=
  ⟨(add_fn_registration_order exABC exStep none "D" false (by decide)).2.2.1
     "B" [⟨"A", exStep, none, false⟩] ⟨"B", exStep, none, false⟩
     [⟨"C", exStep, none, false⟩] (by decide) rfl rfl (by decide),
   by decide,
   (add_fn_registration_order exABC exStep none "D" false (by decide)).2.1
     "Z" (by decide) (by decide)⟩

/-- An always-true predicate. -/
def exTruePred : FDict Nat → Bool := fun _ => true

/-- An always-false predicate. -/
def exFalsePred : FDict Nat → Bool := fun _ => false

def exFb : FilterBuilderState Nat :=
  addFilterFn (addFilterFn initFilterBuilder exTruePred Phase.DECODE)
    exFalsePred Phase.DECODE

def exFb2 : FilterBuilderState Nat :=
  addFilterFn (addFilterFn initFilterBuilder exFalsePred Phase.DECODE)
    exTruePred Phase.DECODE

/-- C4: the compiled per-phase filter returns the AND of all predicates
registered for that phase on the given input (so with zero predicates it
returns true on every input), and two builders whose predicate lists for
a phase are permutations of each other — the same multiset registered in
two orders — compile to filters that agree on every input. -/
theorem filter_build_spec {V : Type u} (fb fb2 : FilterBuilderState V)
    (after_phase : Phase) (d : FDict V) :
    buildFilter fb after_phase d
      = (fb.filter_fns after_phase).all (fun fn => fn d)
    ∧ (fb.filter_fns after_phase = [] → buildFilter fb after_phase d = true)
    ∧ ((fb.filter_fns after_phase).Perm (fb2.filter_fns after_phase) →
        buildFilter fb after_phase d = buildFilter fb2 after_phase d) := by
  have hall : ∀ g : FilterBuilderState V,
      buildFilter g after_phase d = (g.filter_fns after_phase).all (fun fn => fn d) := by
    intro g
    unfold buildFilter
    rw [foldl_and_eq_all]
    simp
  refine ⟨hall fb, ?_, ?_⟩
  · intro h
    rw [hall fb, h]
    rfl
  · intro h
    rw [hall fb, hall fb2]
    exact all_perm_eq _ h

/-- Witness for C4: zero predicates at DECODE pass; true ∧ false fails;
the two registration orders agree. -/
theorem filter_build_spec_witness :
    buildFilter (initFilterBuilder (V := Nat)) Phase.DECODE [] = true ∧
    buildFilter exFb Phase.DECODE [] = false ∧
    buildFilter exFb Phase.DECODE [] = buildFilter exFb2 Phase.DECODE [] :=
  ⟨(filter_build_spec initFilterBuilder initFilterBuilder Phase.DECODE []).2.1 rfl,
   rfl,
   (filter_build_spec exFb exFb2 Phase.DECODE []).2.2
     (List.Perm.swap exFalsePred exTruePred [])⟩

/-- C2: for both record-parser builders, `parse_feature` fails with the
duplicate-output-name `ValueError` when the resolved output name
(defaulting to the source name when omitted) already appears among the
previously registered output names, and with the inconsistent-type
`ValueError` when the schema key (`feature_name`, resp.
`(feature_name, is_context)`) was already registered with a different
`feature_type`; in both failure cases the returned state — feature-type
map and output-name lists — is exactly the state before the call. -/
theorem parse_feature_errors_atomic {T : Type v} [DecidableEq T]
    (s : ParserState String T) (sq : ParserState (String × Bool) T)
    (feature_name : String) (output_name : Option String) (t : T)
    (is_context : Bool) :
    (resolveOutputName output_name feature_name ∈ allOutputNames s →
      ExampleParserBuilder.parse_feature s feature_name t output_name
        = .error (.duplicateOutputName (resolveOutputName output_name feature_name), s))
    ∧ (∀ t0, resolveOutputName output_name feature_name ∉ allOutputNames s →
        lookupA s.features feature_name = some t0 → t0 ≠ t →
        ExampleParserBuilder.parse_feature s feature_name t output_name
          = .error (.inconsistentFieldType, s))
    ∧ (resolveOutputName output_name feature_name ∈ allOutputNames sq →
      SequenceExampleParserBuilder.parse_feature sq feature_name t output_name is_context
        = .error (.duplicateOutputName (resolveOutputName output_name feature_name), sq))
    ∧ (∀ t0, resolveOutputName output_name feature_name ∉ allOutputNames sq →
        lookupA sq.features (feature_name, is_context) = some t0 → t0 ≠ t →
        SequenceExampleParserBuilder.parse_feature sq feature_name t output_name is_context
          = .error (.inconsistentFieldType, sq)) :=
  ⟨fun h => parseFeatureCore_dup s feature_name _ t h,
   fun t0 h1 h2 h3 => parseFeatureCore_type_error s feature_name _ t t0 h1 h2 h3,
   fun h => parseFeatureCore_dup sq (feature_name, is_context) _ t h,
   fun t0 h1 h2 h3 =>
     parseFeatureCore_type_error sq (feature_name, is_context) _ t t0 h1 h2 h3⟩

def exPs : ParserState String Nat := ⟨[("a", 7)], [("a", ["x"])]⟩

def exQs : ParserState (String × Bool) Nat := ⟨[(("a", true), 7)], [(("a", true), ["x"])]⟩

/-- Witness for C2: a duplicate output name and an inconsistent type are
both rejected, for both builders, with the state unchanged. -/
theorem parse_feature_errors_atomic_witness :
    ExampleParserBuilder.parse_feature exPs "a" 9 (some "x")
      = .error (.duplicateOutputName "x", exPs)
    ∧ ExampleParserBuilder.parse_feature exPs "a" 9 (some "y")
      = .error (.inconsistentFieldType, exPs)
    ∧ SequenceExampleParserBuilder.parse_feature exQs "a" 9 (some "x") true
      = .error (.duplicateOutputName "x", exQs)
    ∧ SequenceExampleParserBuilder.parse_feature exQs "a" 9 (some "y") true
      = .error (.inconsistentFieldType, exQs) :=
  ⟨(parse_feature_errors_atomic exPs exQs "a" (some "x") 9 true).1 (by decide),
   (parse_feature_errors_atomic exPs exQs "a" (some "y") 9 true).2.1 7
     (by decide) (by decide) (by decide),
   (parse_feature_errors_atomic exPs exQs "a" (some "x") 9 true).2.2.1 (by decide),
   (parse_feature_errors_atomic exPs exQs "a" (some "y") 9 true).2.2.2 7
     (by decide) (by decide) (by decide)⟩

/-- C3: for both record-parser builders, registering the same source
field twice with the same `feature_type` and two distinct fresh output
names succeeds, and the compiled parse function then binds every
registered output name of that source field — in particular both new
names — to the same parsed value (the value duplicated into each output
name). -/
theorem parse_feature_fanout {R : Type u} {T V : Type v} [DecidableEq T]
    (tfParseEx : R → String → T → V) (tfParseSeq : R → String → Bool → T → V)
    (s : ParserState String T) (sq : ParserState (String × Bool) T)
    (fname : String) (t : T) (o1 o2 : Option String) (is_context : Bool) :
    (WfParser s →
     resolveOutputName o1 fname ∉ allOutputNames s →
     resolveOutputName o2 fname ∉ allOutputNames s →
     resolveOutputName o1 fname ≠ resolveOutputName o2 fname →
     (lookupA s.features fname = none ∨ lookupA s.features fname = some t) →
     ∃ s1 s2, ExampleParserBuilder.parse_feature s fname t o1 = .ok s1
       ∧ ExampleParserBuilder.parse_feature s1 fname t o2 = .ok s2
       ∧ resolveOutputName o1 fname ∈ (lookupA s2.name_dict fname).getD []
       ∧ resolveOutputName o2 fname ∈ (lookupA s2.name_dict fname).getD []
       ∧ ∀ (raw : R) (n : String), n ∈ (lookupA s2.name_dict fname).getD [] →
           lookupA (ExampleParserBuilder.parse_fn tfParseEx s2 raw) n
             = some (tfParseEx raw fname t))
    ∧ (WfParser sq →
     resolveOutputName o1 fname ∉ allOutputNames sq →
     resolveOutputName o2 fname ∉ allOutputNames sq →
     resolveOutputName o1 fname ≠ resolveOutputName o2 fname →
     (lookupA sq.features (fname, is_context) = none ∨
       lookupA sq.features (fname, is_context) = some t) →
     ∃ s1 s2,
       SequenceExampleParserBuilder.parse_feature sq fname t o1 is_context = .ok s1
       ∧ SequenceExampleParserBuilder.parse_feature s1 fname t o2 is_context = .ok s2
       ∧ resolveOutputName o1 fname ∈ (lookupA s2.name_dict (fname, is_context)).getD []
       ∧ resolveOutputName o2 fname ∈ (lookupA s2.name_dict (fname, is_context)).getD []
       ∧ ∀ (raw : R) (n : String),
           n ∈ (lookupA s2.name_dict (fname, is_context)).getD [] →
           lookupA (SequenceExampleParserBuilder.parse_fn tfParseSeq s2 raw) n
             = some (tfParseSeq raw fname is_context t)) := by
  constructor
  · intro hwf h1 h2 h12 htype
    obtain ⟨s1, s2, e1, e2, hnd2, hfeat2, hlook2, hdisj2⟩ :=
      register_twice_core s fname (resolveOutputName o1 fname)
        (resolveOutputName o2 fname) t hwf h1 h2 h12 htype
    refine ⟨s1, s2, e1, e2, ?_, ?_, ?_⟩
    · rw [hlook2]; simp
    · rw [hlook2]; simp
    · intro raw n hn
      exact example_parse_fn_lookup tfParseEx s2 raw fname t n hnd2 hfeat2 hn
        (fun k' hk' => hdisj2 n hn k' hk')
  · intro hwf h1 h2 h12 htype
    obtain ⟨s1, s2, e1, e2, hnd2, hfeat2, hlook2, hdisj2⟩ :=
      register_twice_core sq (fname, is_context) (resolveOutputName o1 fname)
        (resolveOutputName o2 fname) t hwf h1 h2 h12 htype
    refine ⟨s1, s2, e1, e2, ?_, ?_, ?_⟩
    · rw [hlook2]; simp
    · rw [hlook2]; simp
    · intro raw n hn
      exact sequence_parse_fn_lookup tfParseSeq s2 raw fname is_context t n
        hnd2 hfeat2 hn (fun k' hk' => hdisj2 n hn k' hk')

/-- Witness for C3: fan-out of feature "a" into "x" and "y" on the empty
flat builder; both names receive the parsed value. -/
theorem parse_feature_fanout_witness :
    ∃ s1 s2,
      ExampleParserBuilder.parse_feature
        (initParser (κ := String) (T := Nat)) "a" 7 (some "x") = .ok s1
      ∧ ExampleParserBuilder.parse_feature s1 "a" 7 (some "y") = .ok s2
      ∧ "x" ∈ (lookupA s2.name_dict "a").getD []
      ∧ "y" ∈ (lookupA s2.name_dict "a").getD []
      ∧ ∀ (raw : Nat) (n : String), n ∈ (lookupA s2.name_dict "a").getD [] →
          lookupA (ExampleParserBuilder.parse_fn
            (fun (r : Nat) (_ : String) (t : Nat) => r + t) s2 raw) n
            = some (raw + 7) :=
  (parse_feature_fanout (fun (r : Nat) (_ : String) (t : Nat) => r + t)
    (fun (r : Nat) (_ : String) (_ : Bool) (t : Nat) => r + t)
    initParser initParser "a" 7 (some "x") (some "y") true).1
    ⟨by decide, by decide, by decide⟩ (by decide) (by decide) (by decide)
    (Or.inl (by decide))

/-- A field-scoped step whose caller-supplied function never raises. -/
def exKeyStep : FunctionDescription Nat Nat String :=
  ⟨"crop", .feature (fun v => .ok (v + 1)), some "x", false⟩

/-- Discriminator for errors raised inside caller-supplied functions. -/
def isUserError {E : Type u} : RunError E → Bool
  | .userError _ => true
  | _ => false

/-- C9 counterexample: a compiled pipeline with one field-scoped step
whose caller-supplied function never raises still errors at call time
when the input mapping lacks the target field "x": the `KeyError` is
raised by the pipeline core's own `output[fd.feature_name]` lookup, not
by a caller-supplied step function, so not every execution error
originates from caller-supplied code. -/
theorem process_fn_core_key_error :
    processFn [exKeyStep] ([] : FDict Nat) = .error (.keyError "x")
    ∧ isUserError (RunError.keyError "x" : RunError String) = false :=
  ⟨rfl, rfl⟩

/-- C9 amended: configuration errors are raised synchronously by the
mutating builder calls themselves; at compiled-function call time, an
error raised at any step — in particular an error raised by a
caller-supplied function — aborts the run and propagates unmodified as
the pipeline's result; however the compiled function can additionally
raise a missing-key error of its own when a field-scoped step's target
field is absent, and when every step's function shape matches its flags,
every run-time error is either such a missing-key error or a
caller-supplied error. -/
theorem process_fn_error_propagation {V S E : Type u} :
    (∀ (fns1 fns2 : List (FunctionDescription V S E))
       (fd : FunctionDescription V S E) (input d' : FDict V) (st' : PState S)
       (e : RunError E),
      processSteps fns1 (dictCopy input) ([] : PState S) = .ok (d', st') →
      applyFd fd d' st' = .error e →
      processFn (fns1 ++ fd :: fns2) input = .error e)
    ∧ (∀ (fns : List (FunctionDescription V S E)) (input : FDict V)
        (e : RunError E),
        (∀ fd ∈ fns, tagMatches fd = true) →
        processFn fns input = .error e →
        (∃ u, e = .userError u) ∨ (∃ k, e = .keyError k)) := by
  constructor
  · intro fns1 fns2 fd input d' st' e h1 h2
    unfold processFn
    rw [processSteps_append fns1 (fd :: fns2) (dictCopy input) ([] : PState S), h1]
    show (match processSteps (fd :: fns2) d' st' with
          | .ok (output, _) => Except.ok output
          | .error e => Except.error e) = Except.error e
    rw [processSteps, h2]
  · intro fns input e htag h
    unfold processFn at h
    cases hps : processSteps fns (dictCopy input) ([] : PState S) with
    | error e' =>
        rw [hps] at h
        simp only [Except.error.injEq] at h
        exact h ▸ processSteps_error_classify fns (dictCopy input) [] e' htag hps
    | ok r =>
        obtain ⟨o, st⟩ := r
        rw [hps] at h
        simp at h

/-- A step function that always raises the error "boom". -/
def exFailStep : FunctionDescription Nat Nat String :=
  ⟨"boom_step", .mapping (fun _ => .error "boom"), none, false⟩

/-- Witness for C9 amended: an error raised by a caller-supplied step
propagates unmodified through the compiled pipeline, and every error of
a tag-consistent pipeline is a user or missing-key error. -/
theorem process_fn_error_propagation_witness :
    processFn [exKeyStep, exFailStep] ([("x", 3)] : FDict Nat)
      = .error (.userError "boom")
    ∧ ((∃ u, (RunError.userError "boom" : RunError String) = .userError u) ∨
        (∃ k, (RunError.userError "boom" : RunError String) = .keyError k)) :=
  ⟨process_fn_error_propagation.1 [exKeyStep] [] exFailStep [("x", 3)]
      [("x", 4)] [] (.userError "boom") rfl rfl,
   process_fn_error_propagation.2 [exKeyStep, exFailStep] [("x", 3)]
      (.userError "boom") (by decide)
      (process_fn_error_propagation.1 [exKeyStep] [] exFailStep [("x", 3)]
        [("x", 4)] [] (.userError "boom") rfl rfl)⟩

/-- C10: each invocation of a compiled process function starts from a
freshly created empty `ProcessorState` (the `[]` in the first conjunct),
and the result of invoking the compiled function on an input is the same
whether or not another invocation happened before it: invocations are
isolated. -/
theorem process_fn_state_isolation {V S E : Type u}
    (fns_list : List (FunctionDescription V S E)) (d1 d2 : FDict V) :
    processFn fns_list d2
      = (match processSteps fns_list (dictCopy d2) ([] : PState S) with
         | .ok (output, _) => Except.ok output
         | .error e => Except.error e)
    ∧ invokeAll fns_list [d1, d2] = [processFn fns_list d1, processFn fns_list d2]
    ∧ (invokeAll fns_list [d1, d2]).getLast? = (invokeAll fns_list [d2]).getLast? :=
  ⟨rfl, rfl, rfl⟩

/-- C1: the function returned by `build()` is an immutable snapshot of
the registry at the moment of the call: in every operation trace, the
compiled function recorded at a `build` equals `processFn` of the
registry determined solely by the operations before that build,
whatever `add_step`/`remove_step`/`replace_step`/`reset` operations
follow it — so its behaviour on every input mapping is unchanged by the
later mutations. -/
theorem compiled_snapshot_immutable {V S E : Type u} (b : BuilderState V S E)
    (ops1 ops2 : List (TOp V S E)) (input : FDict V) :
    (snapshots b (ops1 ++ TOp.build :: ops2))[buildCount ops1]?
      = some (build (applyTOps b ops1))
    ∧ build (applyTOps b ops1) input
      = processFn (applyTOps b ops1).fns_list input := by
  constructor
  · rw [snapshots_append ops1 (TOp.build :: ops2) b]
    rw [show snapshots (applyTOps b ops1) (TOp.build :: ops2)
        = build (applyTOps b ops1) :: snapshots (applyTOps b ops1) ops2 from rfl]
    rw [← snapshots_length ops1 b]
    exact getElem?_append_cons_length _ _ _
  · rfl
